import Mathlib

/-!
Verification of the agenthints core: the section transformer
(`transformForAgent`, `extractSection`, `removeSection`, `upsertSection`),
the disk-cache expiry predicate (`isExpired`), the registry client's cache
gates and error paths (`fetchHintContent`, `fetchHintMetadata`), and the
path-traversal guard (`resolvePath`).

Text is modelled as `List Char`; the JavaScript string builtins used by the
source (`indexOf`, `slice`, `replace` with a string pattern — including its
`$`-substitution patterns — `trim`, `startsWith`, and the regex replace of
newline runs) are embedded as executable functions below.
-/

set_option maxRecDepth 10000
set_option maxHeartbeats 1000000

namespace AgentHints

abbrev Text := List Char

/-- JS `s.indexOf(pat)`: index of the first occurrence of `pat` in `s`,
`none` for `-1`. (`"".indexOf("")` and `s.indexOf("")` are `0`.) -/
def firstIdx : Text → Text → Option Nat
  | [], pat => if pat.isPrefixOf [] then some 0 else none
  | s@(_ :: t), pat =>
      if pat.isPrefixOf s then some 0
      else Option.map (fun n => n + 1) (firstIdx t pat)

/-- JS `s.includes(pat)` / `s.indexOf(pat) !== -1`. -/
def containsSub (s pat : Text) : Bool := (firstIdx s pat).isSome

/-- JS `s.slice(a, b)` for `0 ≤ a`, `0 ≤ b` (clamped at the length). -/
def sliceL (s : Text) (a b : Nat) : Text := (s.take b).drop a

/-- ECMAScript `GetSubstitution` for a string (non-regex) pattern: in the
replacement text, `$$` is a literal dollar, `$&` the matched substring,
`$` followed by a backquote the text before the match, `$'` the text after
the match; any other `$…` (there are no capture groups) stays literal. -/
def jsSubstitute (matched before after : Text) : Text → Text
  | [] => []
  | c :: rest =>
      if c = '$' then
        match rest with
        | '$' :: r => '$' :: jsSubstitute matched before after r
        | '&' :: r => matched ++ jsSubstitute matched before after r
        | '\x60' :: r => before ++ jsSubstitute matched before after r
        | '\x27' :: r => after ++ jsSubstitute matched before after r
        | [] => ['$']
        | d :: r => '$' :: d :: jsSubstitute matched before after r
      else c :: jsSubstitute matched before after rest

/-- JS `s.replace(pat, repl)` with a string pattern: replaces only the first
occurrence, applying the `$`-substitution patterns to `repl`. -/
def replaceFirst (s pat repl : Text) : Text :=
  match firstIdx s pat with
  | none => s
  | some i =>
      s.take i ++ jsSubstitute pat (s.take i) (s.drop (i + pat.length)) repl
        ++ s.drop (i + pat.length)

/-- JS whitespace as stripped by `String.prototype.trim`. -/
def isJsWs (c : Char) : Bool :=
  c == ' ' || c == '\t' || c == '\n' || c == '\r' || c == '\x0b' ||
  c == '\x0c' || c == '\u00A0' || c == '\uFEFF' || c == '\u2028' || c == '\u2029'

/-- JS `s.trim()`. -/
def trim (s : Text) : Text :=
  ((s.dropWhile isJsWs).reverse.dropWhile isJsWs).reverse

/-- Helper for the regex replace `s.replace(/\n{3,}/g, "\n\n")`: `k` counts
the newlines already emitted in the current run; once two are out, further
newlines of the run are dropped, so every maximal run of three or more
newlines collapses to exactly two and shorter runs pass through unchanged —
exactly the effect of the global regex replacement. -/
def collapseRun (k : Nat) : Text → Text
  | [] => []
  | c :: t =>
      if c = '\n' then
        if 2 ≤ k then collapseRun k t else '\n' :: collapseRun (k + 1) t
      else c :: collapseRun 0 t

/-- The regex replace `s.replace(/\n{3,}/g, "\n\n")`. -/
def collapseNL (s : Text) : Text := collapseRun 0 s

/-! ## Section transformer (`src/transform.ts`) -/

/-- The start marker `<!-- agenthints:{slug}:start -->` built by `wrapInSection`
and searched for by `extractSection`. -/
def startMarker (hintName : Text) : Text :=
  "<!-- agenthints:".data ++ hintName ++ ":start -->".data

/-- The end marker `<!-- agenthints:{slug}:end -->`. -/
def endMarker (hintName : Text) : Text :=
  "<!-- agenthints:".data ++ hintName ++ ":end -->".data

/-- `wrapInSection`: `` `${sectionStart}\n${content}\n${sectionEnd}` ``. -/
def wrapInSection (content hintName : Text) : Text :=
  startMarker hintName ++ '\n' :: (content ++ '\n' :: endMarker hintName)

/-- Result type of `transformForAgent`. -/
structure TransformResult where
  content : Text
  path : Text
  appendMode : Bool
deriving DecidableEq

/-- The `header?: string | ((hintName: string) => string)` field of
`AgentConfig`; `absent` models the field being `undefined`. -/
inductive AgentHeader where
  | absent
  | fixed (s : Text)
  | dynamic (f : Text → Text)

/-- `AgentConfig` from `src/agents.ts`; `transform` models the optional
`transform?: (content, hintName) => string` hook. -/
structure AgentConfig where
  name : Text
  description : Text
  path : Text
  header : AgentHeader
  appendMode : Bool
  transform : Option (Text → Text → Text)

/-- `resolveAgentHeader`: `if (!agent.header) return;` (so an empty fixed
header string is falsy and yields `undefined`), then dispatch on
function-vs-string. -/
def resolveAgentHeader (agent : AgentConfig) (hintName : Text) : Option Text :=
  match agent.header with
  | .absent => none
  | .dynamic f => some (f hintName)
  | .fixed s => if s.isEmpty then none else some s

/-- `transformForAgent`: header (if truthy) → custom transform → section wrap
when `appendMode`; `` `${header}\n\n${transformedContent}` ``. -/
def transformForAgent (content hintName : Text) (agent : AgentConfig)
    (resolvedPath : Text) : TransformResult :=
  let withHeader :=
    match resolveAgentHeader agent hintName with
    | some h => if h.isEmpty then content else h ++ '\n' :: '\n' :: content
    | none => content
  let transformed :=
    match agent.transform with
    | some f => f withHeader hintName
    | none => withHeader
  { content := if agent.appendMode then wrapInSection transformed hintName else transformed
    path := resolvedPath
    appendMode := agent.appendMode }

/-- `extractSection`: `indexOf` of each marker; `null` when either is missing
or `startIndex >= endIndex`; otherwise
`fileContent.slice(startIndex, endIndex + sectionEnd.length)`. -/
def extractSection (fileContent hintName : Text) : Option Text :=
  match firstIdx fileContent (startMarker hintName),
        firstIdx fileContent (endMarker hintName) with
  | some startIndex, some endIndex =>
      if endIndex ≤ startIndex then none
      else some (sliceL fileContent startIndex (endIndex + (endMarker hintName).length))
  | some _, none => none
  | none, _ => none

/-- `removeSection`: delete the extracted section (first occurrence), collapse
`\n{3,}` runs to two newlines, trim. -/
def removeSection (fileContent hintName : Text) : Text :=
  match extractSection fileContent hintName with
  | none => fileContent
  | some section_ => trim (collapseNL (replaceFirst fileContent section_ []))

/-- `upsertSection`: replace the existing section in place, or append
(`` `${trimmedContent}\n\n${newSection}` ``, just `newSection` on an
empty-after-trim file). -/
def upsertSection (fileContent hintName newSection : Text) : Text :=
  match extractSection fileContent hintName with
  | some existingSection => replaceFirst fileContent existingSection newSection
  | none =>
      if (trim fileContent).isEmpty then newSection
      else trim fileContent ++ '\n' :: '\n' :: newSection

/-! ## Cache store (`src/cache.ts`) -/

/-- `INDEX_TTL_MS = 5 * 60 * 1000`. -/
def INDEX_TTL_MS : Int := 5 * 60 * 1000

/-- `HINT_TTL_MS = 24 * 60 * 60 * 1000`. -/
def HINT_TTL_MS : Int := 24 * 60 * 60 * 1000

/-- `isExpired(timestamp, ttlMs)`; `Date.now()` is passed explicitly as
`now`. -/
def isExpired (now timestamp ttlMs : Int) : Bool :=
  decide (ttlMs ≤ now - timestamp)

/-! ## Concrete agent configurations (from `src/agents.ts`), used as
witnesses. -/

/-- The `claude` entry of the static agents map. -/
def claudeAgent : AgentConfig :=
  { name := "Claude Code".data
    description := "Anthropic Claude Code CLI".data
    path := "CLAUDE.md".data
    header := .absent
    appendMode := true
    transform := none }

/-- The `cline` entry of the static agents map. -/
def clineAgent : AgentConfig :=
  { name := "Cline".data
    description := "Cline VS Code extension".data
    path := ".clinerules/\x7bhint\x7d.md".data
    header := .absent
    appendMode := false
    transform := none }

/-! ## No triple newline survives `collapseNL`, and `trim` keeps it so -/

/-- Number of leading newlines. -/
def leadNL (s : Text) : Nat := (s.takeWhile (fun c => c == '\n')).length

/-! ## Path resolution (`resolvePath` in `packages/cli/src/utils/files.ts`),
modelling Node's POSIX `path.resolve`.  An absolute path is a list of
segments; the working directory is passed as its (already resolved) segment
list. -/

/-- Split a path string on `/`. -/
def splitSegs : Text → List Text
  | [] => [[]]
  | c :: t =>
      if c = '/' then [] :: splitSegs t
      else
        match splitSegs t with
        | [] => [[c]]
        | s :: rest => (c :: s) :: rest

/-- One step of POSIX normalisation: skip empty and `.` segments, pop on
`..` (a no-op at the root), push anything else. -/
def stepSeg (acc : List Text) (seg : Text) : List Text :=
  if seg.isEmpty || seg = ".".data then acc
  else if seg = "..".data then acc.dropLast
  else acc ++ [seg]

def applySegs (acc : List Text) (segs : List Text) : List Text :=
  segs.foldl stepSeg acc

/-- `path.resolve(baseDir, rel)`: an absolute `rel` ignores the base,
otherwise its segments are applied on top of the base's. -/
def resolveAbs (base : List Text) (rel : Text) : List Text :=
  match rel with
  | '/' :: _ => applySegs [] (splitSegs rel)
  | _ => applySegs base (splitSegs rel)

/-- Render a segment list as an absolute path string (`renderPath [] = "/"`). -/
def renderSegs : List Text → Text
  | [] => []
  | s :: rest => '/' :: (s ++ renderSegs rest)

def renderPath (segs : List Text) : Text :=
  match segs with
  | [] => ['/']
  | _ => renderSegs segs

/-- Well-formed segments: nonempty, no `/` inside. -/
def wfSegs (l : List Text) : Bool :=
  l.all fun s => !s.isEmpty && s.all (fun c => !(c == '/'))

/-- The error message thrown on path escape:
`Path "${relativePath}" resolves outside the working directory`. -/
def pathEscapeMsg (relativePath : Text) : Text :=
  "Path \"".data ++ relativePath ++ "\" resolves outside the working directory".data

/-- `resolvePath(relativePath, cwd)`:
`if (!resolved.startsWith(baseDir + sep) && resolved !== baseDir) throw`. -/
def resolvePath (relativePath : Text) (cwd : List Text) : Except Text Text :=
  if (renderPath cwd ++ ['/']).isPrefixOf (renderPath (resolveAbs cwd relativePath))
      || renderPath (resolveAbs cwd relativePath) = renderPath cwd then
    Except.ok (renderPath (resolveAbs cwd relativePath))
  else Except.error (pathEscapeMsg relativePath)

/-- Well-formedness as a proposition. -/
def WfP (l : List Text) : Prop := ∀ s ∈ l, s ≠ [] ∧ '/' ∉ s

/-! ## Registry client (`src/registry.ts`), remote mode.  `readCache` is
modelled by the `cached` argument, `Date.now()` by `now`, the `fetch`
response by an explicit record, and the result constructor carries the
`writeCache` payload. -/

structure ContentCacheEntry where
  data : Text
  timestamp : Int
  sha256 : Option Text
deriving DecidableEq

structure HttpTextResponse where
  status : Nat
  statusText : Text
  body : Text
deriving DecidableEq

/-- `response.ok`: HTTP status in the 2xx range. -/
def respOk (status : Nat) : Bool := decide (200 ≤ status ∧ status < 300)

/-- JS truthiness of the optional `expectedSha256` string (`undefined` and
`""` are falsy). -/
def truthyOpt : Option Text → Bool
  | none => false
  | some s => !s.isEmpty

/-- Result of `fetchHintContent`: cached data, or the network body together
with the entry written back by `writeCache(cacheKey, content, expectedSha256)`
(which records `sha256` only when truthy), or a failed fetch. -/
inductive ContentFetchResult where
  | fromCache (data : Text)
  | fromNetwork (data : Text) (written : ContentCacheEntry)
  | fetchFailed (statusText : Text)
deriving DecidableEq

/-- The cache gate of `fetchHintContent`: `cached &&
!isExpired(cached.timestamp, HINT_TTL_MS) && (!expectedSha256 ||
cached.sha256 === expectedSha256)`. -/
def contentCacheUsable (cached : Option ContentCacheEntry) (now : Int)
    (expectedSha256 : Option Text) : Bool :=
  match cached with
  | none => false
  | some c =>
      !isExpired now c.timestamp HINT_TTL_MS &&
        (!truthyOpt expectedSha256 || c.sha256 == expectedSha256)

def contentNetworkStep (resp : HttpTextResponse) (now : Int)
    (expectedSha256 : Option Text) : ContentFetchResult :=
  if respOk resp.status then
    ContentFetchResult.fromNetwork resp.body
      ⟨resp.body, now, if truthyOpt expectedSha256 then expectedSha256 else none⟩
  else ContentFetchResult.fetchFailed resp.statusText

def fetchHintContent (cached : Option ContentCacheEntry) (now : Int)
    (resp : HttpTextResponse) (expectedSha256 : Option Text) : ContentFetchResult :=
  match cached with
  | some c =>
      if contentCacheUsable (some c) now expectedSha256 then
        ContentFetchResult.fromCache c.data
      else contentNetworkStep resp now expectedSha256
  | none => contentNetworkStep resp now expectedSha256

structure HintMetadata where
  name : Text
  description : Text
  version : Int
  submitter : Option Text
  category : Text
  tags : List Text
  hint : Text
deriving DecidableEq

structure MetaCacheEntry where
  data : HintMetadata
  timestamp : Int
deriving DecidableEq

structure MetaHttpResponse where
  status : Nat
  statusText : Text
  body : HintMetadata
deriving DecidableEq

/-- `` `Hint "${hintPath}" not found in registry. Run "agenthints list" to
see available hints.` `` -/
def notFoundMsg (hintPath : Text) : Text :=
  "Hint \"".data ++ hintPath ++
    "\" not found in registry. Run \"agenthints list\" to see available hints.".data

/-- `` `Failed to fetch hint metadata: ${response.statusText}` `` -/
def fetchMetaErrMsg (statusText : Text) : Text :=
  "Failed to fetch hint metadata: ".data ++ statusText

/-- Result of `fetchHintMetadata`: the two error constructors mirror the two
distinct `throw` sites. -/
inductive MetaFetchResult where
  | fromCache (m : HintMetadata)
  | fetched (m : HintMetadata) (written : MetaCacheEntry)
  | notFoundError (msg : Text)
  | fetchError (msg : Text)
deriving DecidableEq

def metaCacheUsable (cached : Option MetaCacheEntry) (now : Int) : Bool :=
  match cached with
  | none => false
  | some c => !isExpired now c.timestamp HINT_TTL_MS

def metaNetworkStep (hintPath : Text) (resp : MetaHttpResponse) (now : Int) :
    MetaFetchResult :=
  if respOk resp.status then MetaFetchResult.fetched resp.body ⟨resp.body, now⟩
  else if resp.status = 404 then MetaFetchResult.notFoundError (notFoundMsg hintPath)
  else MetaFetchResult.fetchError (fetchMetaErrMsg resp.statusText)

def fetchHintMetadata (cached : Option MetaCacheEntry) (now : Int) (hintPath : Text)
    (resp : MetaHttpResponse) : MetaFetchResult :=
  match cached with
  | some c =>
      if !isExpired now c.timestamp HINT_TTL_MS then MetaFetchResult.fromCache c.data
      else metaNetworkStep hintPath resp now
  | none => metaNetworkStep hintPath resp now

/-- A sample metadata record for witnesses. -/
def sampleMeta : HintMetadata :=
  ⟨"prisma".data, "d".data, 1, none, "orm".data, [], "./hint.md".data⟩

/-! ## Characterisation of `firstIdx` -/

theorem firstIdx_isPref {s pat : Text} {i : Nat} (h : firstIdx s pat = some i) :
    pat <+: s.drop i := by
  induction s generalizing i with
  | nil =>
    rw [firstIdx] at h
    split at h
    · rename_i hp
      cases h
      exact List.isPrefixOf_iff_prefix.mp hp
    · cases h
  | cons c t ih =>
    rw [firstIdx] at h
    split at h
    · rename_i hp
      cases h
      exact List.isPrefixOf_iff_prefix.mp hp
    · rcases Option.map_eq_some'.mp h with ⟨i', hi', rfl⟩
      simpa using ih hi'

theorem firstIdx_min {s pat : Text} {i : Nat} (h : firstIdx s pat = some i) :
    ∀ j, j < i → ¬ pat <+: s.drop j := by
  induction s generalizing i with
  | nil =>
    rw [firstIdx] at h
    split at h
    · cases h; omega
    · cases h
  | cons c t ih =>
    rw [firstIdx] at h
    split at h
    · cases h; omega
    · rename_i hp
      rcases Option.map_eq_some'.mp h with ⟨i', hi', rfl⟩
      intro j hj
      cases j with
      | zero =>
        simpa [List.isPrefixOf_iff_prefix] using hp
      | succ j' =>
        simpa using ih hi' j' (by omega)

theorem firstIdx_complete {s pat : Text} {i : Nat} (hocc : pat <+: s.drop i)
    (hmin : ∀ j, j < i → ¬ pat <+: s.drop j) : firstIdx s pat = some i := by
  induction s generalizing i with
  | nil =>
    have hp : pat <+: ([] : Text) := by simpa using hocc
    rw [firstIdx]
    have : i = 0 := by
      by_contra hne
      exact hmin 0 (by omega) (by simpa using hp)
    subst this
    simp [List.isPrefixOf_iff_prefix, hp]
  | cons c t ih =>
    rw [firstIdx]
    split
    · rename_i hp
      have : i = 0 := by
        by_contra hne
        exact hmin 0 (by omega) (by simpa using List.isPrefixOf_iff_prefix.mp hp)
      simp [this]
    · rename_i hp
      cases i with
      | zero =>
        exact absurd hocc (by simpa [List.isPrefixOf_iff_prefix] using hp)
      | succ i' =>
        have := ih (i := i') (by simpa using hocc)
          (fun j hj => by simpa using hmin (j + 1) (by omega))
        simp [this]

theorem firstIdx_none {s pat : Text} (h : firstIdx s pat = none) :
    ∀ j, ¬ pat <+: s.drop j := by
  induction s with
  | nil =>
    rw [firstIdx] at h
    split at h
    · cases h
    · intro j hj
      rename_i hp
      have : pat = [] := by simpa using hj
      subst this
      simp [List.isPrefixOf_iff_prefix] at hp
  | cons c t ih =>
    rw [firstIdx] at h
    split at h
    · cases h
    · rename_i hp
      have ht : firstIdx t pat = none := by
        cases hft : firstIdx t pat with
        | none => rfl
        | some k => simp [hft] at h
      intro j
      cases j with
      | zero => simpa [List.isPrefixOf_iff_prefix] using hp
      | succ j' => simpa using ih ht j'

theorem firstIdx_le {s pat : Text} {i : Nat} (h : firstIdx s pat = some i) :
    i ≤ s.length := by
  induction s generalizing i with
  | nil =>
    rw [firstIdx] at h
    split at h
    · cases h; simp
    · cases h
  | cons c t ih =>
    rw [firstIdx] at h
    split at h
    · cases h; simp
    · rcases Option.map_eq_some'.mp h with ⟨i', hi', rfl⟩
      have := ih hi'
      simp; omega

theorem firstIdx_bound {s pat : Text} {i : Nat} (h : firstIdx s pat = some i) :
    i + pat.length ≤ s.length := by
  have h1 := firstIdx_isPref h
  have h2 := firstIdx_le h
  have := h1.length_le
  simp only [List.length_drop] at this
  omega

theorem containsSub_iff_occurs {s pat : Text} : containsSub s pat = true ↔ pat <:+: s := by
  constructor
  · intro h
    rcases Option.isSome_iff_exists.mp h with ⟨i, hi⟩
    exact (firstIdx_isPref hi).isInfix.trans (List.drop_suffix i s).isInfix
  · rintro ⟨a, b, rfl⟩
    have hocc : pat <+: (a ++ (pat ++ b)).drop a.length := by
      rw [List.drop_left]
      exact List.prefix_append pat b
    unfold containsSub
    cases hfi : firstIdx (a ++ (pat ++ b)) pat with
    | none =>
      exact absurd hocc (by simpa [List.append_assoc] using firstIdx_none hfi a.length)
    | some k => simp [hfi]

theorem containsSub_false_no_pref {s pat : Text} (h : containsSub s pat = false) :
    ∀ j, ¬ pat <+: s.drop j := by
  intro j hj
  have : containsSub s pat = true :=
    containsSub_iff_occurs.mpr (hj.isInfix.trans (List.drop_suffix j s).isInfix)
  simp [this] at h

/-! ## Generic prefix utilities -/

theorem pref_left {pat x y : Text} (h : pat <+: x ++ y) (hlen : pat.length ≤ x.length) :
    pat <+: x := by
  have := List.prefix_iff_eq_take.mp h
  rw [List.take_append_eq_append_take, Nat.sub_eq_zero_of_le hlen, List.take_zero,
    List.append_nil] at this
  rw [this]
  exact List.take_prefix _ _

theorem pref_ext {pat x y : Text} (h : pat <+: x) : pat <+: x ++ y :=
  h.trans (List.prefix_append x y)

theorem pref_drop {p l : Text} (h : p <+: l) (n : Nat) : p.drop n <+: l.drop n := by
  rcases h with ⟨t, rfl⟩
  rw [List.drop_append_eq_append_drop]
  exact pref_ext (List.prefix_rfl)

theorem pref_decomp {p l : Text} (h : p <+: l) : l = p ++ l.drop p.length := by
  rcases h with ⟨t, rfl⟩
  rw [List.drop_left]

theorem mem_of_pref_past {pat x w : Text} {c : Char} (h : pat <+: x ++ c :: w)
    (hlen : x.length < pat.length) : c ∈ pat := by
  have := List.prefix_iff_eq_take.mp h
  rw [List.take_append_eq_append_take, List.take_of_length_le (by omega)] at this
  have hpos : 0 < pat.length - x.length := by omega
  rw [this]
  rcases Nat.exists_eq_add_of_lt hpos with ⟨k, hk⟩
  simp [List.take_succ_cons, show pat.length - x.length = k + 1 by omega]

/-- A prefix that straddles the boundary of `x ++ W` can be transported to
`x ++ W'` whenever both `W` and `W'` start with a long enough common block. -/
theorem pref_transfer {pat x W W' m : Text} (h1 : pat <+: x ++ W)
    (hx : x.length ≤ pat.length) (hW : m <+: W) (hW' : m <+: W')
    (hlen : pat.length - x.length ≤ m.length) : pat <+: x ++ W' := by
  have hxp : x <+: pat :=
    List.prefix_of_prefix_length_le (List.prefix_append x W) h1 hx
  have hdk : pat.drop x.length <+: W := by
    have := pref_drop h1 x.length
    rwa [List.drop_left] at this
  have hdm : pat.drop x.length <+: m :=
    List.prefix_of_prefix_length_le hdk hW (by simpa using hlen)
  have hfin : pat.drop x.length <+: W' := hdm.trans hW'
  have hsplit : pat = x ++ pat.drop x.length := pref_decomp hxp
  rw [hsplit]
  exact (List.prefix_append_right_inj x).mpr hfin

theorem no_dollar_subst {repl : Text} (m b a : Text) (h : '$' ∉ repl) :
    jsSubstitute m b a repl = repl := by
  induction repl with
  | nil => rfl
  | cons c rest ih =>
    have hc : c ≠ '$' := fun hc => h (by simp [hc])
    have hr : '$' ∉ rest := fun hr => h (by simp [hr])
    rw [jsSubstitute.eq_def]
    simp only []
    rw [if_neg hc, ih hr]

/-! ## Claim theorems: cache expiry and plain transformation -/

/-- C9: `isExpired(timestamp, t)` is true exactly when `now - timestamp >= t`,
with the boundary inclusive: at `now - timestamp = t` the conjunct on the
right holds, so an entry aged exactly `t` counts as expired. -/
theorem isExpired_spec (now timestamp t : Int) :
    (isExpired now timestamp t = true ↔ now - timestamp ≥ t) ∧
    isExpired (timestamp + t) timestamp t = true := by
  constructor
  · simp [isExpired, ge_iff_le]
  · simp [isExpired]

/-- C10: for an agent with no header, no custom transform and
`appendMode = false`, `transformForAgent` returns the content unchanged, the
given resolved path, and `appendMode = false`. -/
theorem transformForAgent_plain (content hintName resolvedPath : Text)
    (agent : AgentConfig) (hh : agent.header = .absent)
    (ht : agent.transform = none) (ha : agent.appendMode = false) :
    (transformForAgent content hintName agent resolvedPath).content = content ∧
    (transformForAgent content hintName agent resolvedPath).path = resolvedPath ∧
    (transformForAgent content hintName agent resolvedPath).appendMode = false := by
  simp [transformForAgent, resolveAgentHeader, hh, ht, ha]

/-- Witness for C10 at the `cline` agent configuration. -/
theorem transformForAgent_plain_witness :
    (transformForAgent "hello".data "x".data clineAgent ".clinerules/x.md".data).content
        = "hello".data ∧
    (transformForAgent "hello".data "x".data clineAgent ".clinerules/x.md".data).path
        = ".clinerules/x.md".data ∧
    (transformForAgent "hello".data "x".data clineAgent ".clinerules/x.md".data).appendMode
        = false :=
  transformForAgent_plain "hello".data "x".data ".clinerules/x.md".data clineAgent
    rfl rfl rfl

/-! ## Claim theorems: marker wrapping and removal idempotence -/

/-- C6 (amended): with `appendMode = true` the rendered content always
contains both markers; with `appendMode = false` no marker is added — for an
agent without header or custom transform, marker-free content stays
marker-free.  (Unconditionally "never contains markers" is refuted by
`transformForAgent_markers_cex`: the input content may itself contain a
marker, which the transformer passes through.) -/
theorem transformForAgent_markers (content hintName resolvedPath : Text)
    (agent : AgentConfig) :
    (agent.appendMode = true →
      containsSub (transformForAgent content hintName agent resolvedPath).content
        (startMarker hintName) = true ∧
      containsSub (transformForAgent content hintName agent resolvedPath).content
        (endMarker hintName) = true) ∧
    (agent.appendMode = false → agent.header = .absent → agent.transform = none →
      containsSub content (startMarker hintName) = false →
      containsSub content (endMarker hintName) = false →
      containsSub (transformForAgent content hintName agent resolvedPath).content
        (startMarker hintName) = false ∧
      containsSub (transformForAgent content hintName agent resolvedPath).content
        (endMarker hintName) = false) := by
  constructor
  · intro ha
    obtain ⟨t, hcontent⟩ :
        ∃ t, (transformForAgent content hintName agent resolvedPath).content
          = wrapInSection t hintName :=
      ⟨_, by simp only [transformForAgent, ha, if_true]; rfl⟩
    rw [hcontent]
    constructor
    · exact containsSub_iff_occurs.mpr
        (List.IsPrefix.isInfix (List.prefix_append _ _))
    · refine containsSub_iff_occurs.mpr (List.IsSuffix.isInfix ?_)
      refine ⟨startMarker hintName ++ '\n' :: (t ++ ['\n']), ?_⟩
      simp [wrapInSection, List.append_assoc]
  · intro ha hh ht hs he
    have hcontent :
        (transformForAgent content hintName agent resolvedPath).content = content := by
      simp [transformForAgent, resolveAgentHeader, hh, ht, ha]
    rw [hcontent]
    exact ⟨hs, he⟩

/-- Witness for C6: the `claude` agent (append mode) wraps, and the `cline`
agent (per-file mode) leaves marker-free content marker-free. -/
theorem transformForAgent_markers_witness :
    (containsSub (transformForAgent "hello".data "x".data claudeAgent "CLAUDE.md".data).content
        (startMarker "x".data) = true ∧
      containsSub (transformForAgent "hello".data "x".data claudeAgent "CLAUDE.md".data).content
        (endMarker "x".data) = true) ∧
    (containsSub (transformForAgent "hello".data "x".data clineAgent ".clinerules/x.md".data).content
        (startMarker "x".data) = false ∧
      containsSub (transformForAgent "hello".data "x".data clineAgent ".clinerules/x.md".data).content
        (endMarker "x".data) = false) :=
  ⟨(transformForAgent_markers "hello".data "x".data "CLAUDE.md".data claudeAgent).1 rfl,
   (transformForAgent_markers "hello".data "x".data ".clinerules/x.md".data clineAgent).2
     rfl rfl rfl (by decide) (by decide)⟩

/-- C6 counterexample: with `appendMode = false` the claim says the rendered
output "never contains section markers", but content that already contains a
start marker passes through unchanged. -/
theorem transformForAgent_markers_cex :
    clineAgent.appendMode = false ∧
    containsSub
      (transformForAgent "<!-- agenthints:x:start -->".data "x".data clineAgent
        ".clinerules/x.md".data).content
      (startMarker "x".data) = true := by
  constructor
  · rfl
  · decide

/-- C3 (amended): `removeSection` is idempotent whenever one removal
eliminates the section for the slug — in particular on any file holding at
most one marker pair.  Unconditional idempotence is refuted by
`removeSection_idem_cex`: on a file with two sections for the same slug each
call removes only the first one. -/
theorem removeSection_idem (fileContent hintName : Text)
    (h : extractSection (removeSection fileContent hintName) hintName = none) :
    removeSection (removeSection fileContent hintName) hintName
      = removeSection fileContent hintName := by
  have huf :
      removeSection (removeSection fileContent hintName) hintName =
        match extractSection (removeSection fileContent hintName) hintName with
        | none => removeSection fileContent hintName
        | some section_ =>
            trim (collapseNL (replaceFirst (removeSection fileContent hintName) section_ [])) :=
    rfl
  rw [huf, h]

/-- Witness for C3 on a single-section file. -/
theorem removeSection_idem_witness :
    removeSection (removeSection "# Rules\n\n<!-- agenthints:x:start -->\nA\n<!-- agenthints:x:end -->".data "x".data) "x".data
      = removeSection "# Rules\n\n<!-- agenthints:x:start -->\nA\n<!-- agenthints:x:end -->".data "x".data :=
  removeSection_idem "# Rules\n\n<!-- agenthints:x:start -->\nA\n<!-- agenthints:x:end -->".data
    "x".data (by decide)

/-- C3 counterexample: a file with two sections for the slug `x`; the first
removal deletes only the first section, so a second removal changes the text
again. -/
theorem removeSection_idem_cex :
    removeSection
        (removeSection "<!-- agenthints:x:start -->\nA\n<!-- agenthints:x:end -->\n\n<!-- agenthints:x:start -->\nB\n<!-- agenthints:x:end -->".data "x".data)
        "x".data ≠
      removeSection "<!-- agenthints:x:start -->\nA\n<!-- agenthints:x:end -->\n\n<!-- agenthints:x:start -->\nB\n<!-- agenthints:x:end -->".data "x".data := by
  decide

/-! ## Structure of extracted sections -/

theorem startMarker_cons (slug : Text) :
    startMarker slug = '<' :: '!' :: ("-- agenthints:".data ++ slug ++ ":start -->".data) := rfl

theorem endMarker_cons (slug : Text) :
    endMarker slug = '<' :: '!' :: ("-- agenthints:".data ++ slug ++ ":end -->".data) := rfl

theorem startMarker_length (slug : Text) : (startMarker slug).length = slug.length + 26 := by
  have h1 : ("<!-- agenthints:".data : Text).length = 16 := rfl
  have h2 : (":start -->".data : Text).length = 10 := rfl
  simp [startMarker, List.length_append, h1, h2]

theorem endMarker_length (slug : Text) : (endMarker slug).length = slug.length + 24 := by
  have h1 : ("<!-- agenthints:".data : Text).length = 16 := rfl
  have h2 : (":end -->".data : Text).length = 8 := rfl
  simp [endMarker, List.length_append, h1, h2]

theorem nl_not_mem_startMarker {slug : Text} (h : '\n' ∉ slug) :
    '\n' ∉ startMarker slug := by
  intro hmem
  rw [startMarker] at hmem
  rcases List.mem_append.mp hmem with hmem' | hmem'
  · rcases List.mem_append.mp hmem' with hlit | hslug
    · exact absurd hlit (by decide)
    · exact h hslug
  · exact absurd hmem' (by decide)

theorem nl_not_mem_endMarker {slug : Text} (h : '\n' ∉ slug) :
    '\n' ∉ endMarker slug := by
  intro hmem
  rw [endMarker] at hmem
  rcases List.mem_append.mp hmem with hmem' | hmem'
  · rcases List.mem_append.mp hmem' with hlit | hslug
    · exact absurd hlit (by decide)
    · exact h hslug
  · exact absurd hmem' (by decide)

/-- The start index of a section precedes its end index by at least two: an
end-marker occurrence directly after the start index would force the second
character of the start marker, `!`, to equal the first character of the end
marker, `<`. -/
theorem two_le_gap {F slug : Text} {si ei : Nat}
    (hsm : firstIdx F (startMarker slug) = some si)
    (hem : firstIdx F (endMarker slug) = some ei) (hlt : si < ei) :
    si + 2 ≤ ei := by
  by_contra hcon
  have hei : ei = si + 1 := by omega
  subst hei
  have h1 : startMarker slug <+: F.drop si := firstIdx_isPref hsm
  have h2 : endMarker slug <+: F.drop (si + 1) := firstIdx_isPref hem
  rw [startMarker_cons] at h1
  rcases h1 with ⟨t1, ht1⟩
  have hdrop : F.drop (si + 1) = '!' :: (("-- agenthints:".data ++ slug ++ ":start -->".data) ++ t1) := by
    have : F.drop (si + 1) = (F.drop si).drop 1 := by rw [List.drop_drop]
    rw [this, ← ht1]
    rfl
  rw [hdrop, endMarker_cons] at h2
  have := (List.cons_prefix_cons.mp h2).1
  exact absurd this (by decide)

/-- Everything `upsertSection`/`removeSection` need to know about a
successful `extractSection`: the two first-occurrence indices, their gap, the
slice identity, and — crucially — that the extracted text's own first
occurrence in the file starts exactly at the start marker's first index
(because the extracted text begins with the start marker). -/
theorem section_facts {F slug ex : Text} (h : extractSection F slug = some ex) :
    ∃ si ei, firstIdx F (startMarker slug) = some si ∧
      firstIdx F (endMarker slug) = some ei ∧
      si + 2 ≤ ei ∧
      ei + (endMarker slug).length ≤ F.length ∧
      ex = sliceL F si (ei + (endMarker slug).length) ∧
      ex.length = ei + (endMarker slug).length - si ∧
      startMarker slug <+: ex ∧
      ex <+: F.drop si ∧
      firstIdx F ex = some si := by
  unfold extractSection at h
  split at h
  · rename_i si ei hsm hem
    split at h
    · cases h
    · rename_i hgt
      rw [Option.some_inj] at h
      have hlt : si < ei := by omega
      have hgap : si + 2 ≤ ei := two_le_gap hsm hem hlt
      have hbound : ei + (endMarker slug).length ≤ F.length := firstIdx_bound hem
      have hlen : ex.length = ei + (endMarker slug).length - si := by
        rw [← h]
        simp only [sliceL, List.length_drop, List.length_take]
        omega
      have hpre : ex <+: F.drop si := by
        rw [← h]
        exact pref_drop (List.take_prefix _ _) si
      have hsmex : startMarker slug <+: ex := by
        refine List.prefix_of_prefix_length_le (firstIdx_isPref hsm) hpre ?_
        rw [hlen, startMarker_length, endMarker_length]
        omega
      refine ⟨si, ei, hsm, hem, hgap, hbound, h.symm, hlen, hsmex, hpre, ?_⟩
      refine firstIdx_complete hpre ?_
      intro j hj hpj
      exact firstIdx_min hsm j hj (hsmex.trans hpj)
  · cases h
  · cases h

/-- A file that is exactly one section: the start marker sits at index `0`
and the end marker ends the file. -/
theorem extract_self {S slug : Text} (h : extractSection S slug = some S) :
    firstIdx S (startMarker slug) = some 0 ∧
    firstIdx S (endMarker slug) = some (S.length - (endMarker slug).length) ∧
    (endMarker slug).length < S.length ∧
    startMarker slug <+: S := by
  rcases section_facts h with
    ⟨si, ei, hsm, hem, hgap, hbound, hex, hlen, hsmex, hpre, hfi⟩
  have hSlen : S.length = ei + (endMarker slug).length - si := hlen
  have hsi : si = 0 := by omega
  have hei : ei = S.length - (endMarker slug).length := by omega
  subst hsi
  refine ⟨hsm, by rw [← hei]; exact hem, by omega, ?_⟩
  simpa using hsmex

theorem replaceFirst_eq {s pat repl : Text} {i : Nat} (h : firstIdx s pat = some i) :
    replaceFirst s pat repl =
      s.take i ++ jsSubstitute pat (s.take i) (s.drop (i + pat.length)) repl
        ++ s.drop (i + pat.length) := by
  unfold replaceFirst
  rw [h]

/-! ## Claim theorems: `upsertSection` -/

/-- C4 (amended): provided the new section text contains no `$` (JS
`String.replace` interprets `$`-substitution patterns in the replacement,
see `upsertSection_dollar_cex`): if the file has a section for the slug, the
result is the file with exactly the matched marker-to-marker substring —
sitting at the start marker's first index — replaced by the new text, all
surrounding text preserved; otherwise the result is the new text alone on an
empty-after-trim file, and `trimmed ++ "\n\n" ++ newSection` else. -/
theorem upsertSection_spec (F slug S : Text) (hS : '$' ∉ S) :
    (∀ ex si, extractSection F slug = some ex →
      firstIdx F (startMarker slug) = some si →
      F = F.take si ++ ex ++ F.drop (si + ex.length) ∧
      upsertSection F slug S = F.take si ++ S ++ F.drop (si + ex.length)) ∧
    (extractSection F slug = none → trim F = [] → upsertSection F slug S = S) ∧
    (extractSection F slug = none → trim F ≠ [] →
      upsertSection F slug S = trim F ++ '\n' :: '\n' :: S) := by
  refine ⟨?_, ?_, ?_⟩
  · intro ex si hex hsm'
    rcases section_facts hex with
      ⟨si', ei, hsm, hem, hgap, hbound, hexval, hlen, hsmex, hpre, hfi⟩
    have hsieq : si' = si := by
      rw [hsm'] at hsm
      exact (Option.some_inj.mp hsm).symm
    subst hsieq
    constructor
    · conv_lhs => rw [← List.take_append_drop si' F]
      rw [pref_decomp hpre, List.drop_drop, List.append_assoc]
    · have hup : upsertSection F slug S = replaceFirst F ex S := by
        unfold upsertSection
        rw [hex]
      rw [hup, replaceFirst_eq hfi, no_dollar_subst _ _ _ hS]
  · intro hex htrim
    unfold upsertSection
    rw [hex, if_pos (by simp [htrim])]
  · intro hex htrim
    unfold upsertSection
    rw [hex, if_neg (by simpa using htrim)]

/-- Witness for C4, the spec's Scenario 2: replacing the `OLD` section of
`"# Rules\n\n<section>"` in place. -/
theorem upsertSection_spec_witness :
    "# Rules\n\n<!-- agenthints:x:start -->\nOLD\n<!-- agenthints:x:end -->".data =
      "# Rules\n\n<!-- agenthints:x:start -->\nOLD\n<!-- agenthints:x:end -->".data.take 9 ++
        "<!-- agenthints:x:start -->\nOLD\n<!-- agenthints:x:end -->".data ++
        "# Rules\n\n<!-- agenthints:x:start -->\nOLD\n<!-- agenthints:x:end -->".data.drop
          (9 + "<!-- agenthints:x:start -->\nOLD\n<!-- agenthints:x:end -->".data.length) ∧
    upsertSection "# Rules\n\n<!-- agenthints:x:start -->\nOLD\n<!-- agenthints:x:end -->".data
        "x".data "<!-- agenthints:x:start -->\nNEW\n<!-- agenthints:x:end -->".data =
      "# Rules\n\n<!-- agenthints:x:start -->\nOLD\n<!-- agenthints:x:end -->".data.take 9 ++
        "<!-- agenthints:x:start -->\nNEW\n<!-- agenthints:x:end -->".data ++
        "# Rules\n\n<!-- agenthints:x:start -->\nOLD\n<!-- agenthints:x:end -->".data.drop
          (9 + "<!-- agenthints:x:start -->\nOLD\n<!-- agenthints:x:end -->".data.length) :=
  (upsertSection_spec
      "# Rules\n\n<!-- agenthints:x:start -->\nOLD\n<!-- agenthints:x:end -->".data
      "x".data "<!-- agenthints:x:start -->\nNEW\n<!-- agenthints:x:end -->".data
      (by decide)).1
    "<!-- agenthints:x:start -->\nOLD\n<!-- agenthints:x:end -->".data 9
    (by decide) (by decide)

/-- C4 counterexample: on a file that is exactly one section for `x`, the
claim says `upsertSection(F, "x", S)` yields the file with that section
replaced by `S`, i.e. `S` itself; but for `S = "$&"` JS `String.replace`
substitutes the matched text for `$&`, so the result is the old section
again, not `S`. -/
theorem upsertSection_dollar_cex :
    extractSection "<!-- agenthints:x:start -->\nA\n<!-- agenthints:x:end -->".data "x".data
        = some "<!-- agenthints:x:start -->\nA\n<!-- agenthints:x:end -->".data ∧
    upsertSection "<!-- agenthints:x:start -->\nA\n<!-- agenthints:x:end -->".data "x".data
        "$&".data
      = "<!-- agenthints:x:start -->\nA\n<!-- agenthints:x:end -->".data ∧
    upsertSection "<!-- agenthints:x:start -->\nA\n<!-- agenthints:x:end -->".data "x".data
        "$&".data ≠ "$&".data := by
  refine ⟨by decide, by decide, by decide⟩

theorem two_nl_leadNL {X : Text} (h : (['\n', '\n'] : Text) <+: X) :
    2 ≤ leadNL X := by
  rcases h with ⟨t, ht⟩
  rw [← ht]
  simp [leadNL, List.takeWhile_cons]

/-- Invariant of the run-capping recursion: the output never contains three
consecutive newlines, and with `k` newlines already emitted the output can
begin with at most `2 - k` more. -/
theorem collapseRun_inv (s : Text) : ∀ k,
    (∀ i, ¬ (['\n', '\n', '\n'] : Text) <+: (collapseRun k s).drop i) ∧
    leadNL (collapseRun k s) + min k 2 ≤ 2 := by
  induction s with
  | nil =>
    intro k
    constructor
    · intro i hp
      have := hp.length_le
      simp [collapseRun] at this
    · simp [collapseRun, leadNL]
  | cons c t ih =>
    intro k
    by_cases hc : c = '\n'
    · subst hc
      by_cases hk : 2 ≤ k
      · have hout : collapseRun k ('\n' :: t) = collapseRun k t := by
          simp [collapseRun, hk]
        rw [hout]
        exact ⟨(ih k).1, (ih k).2⟩
      · have hout : collapseRun k ('\n' :: t) = '\n' :: collapseRun (k + 1) t := by
          simp [collapseRun, hk]
        rw [hout]
        have H1 := (ih (k + 1)).1
        have H2 := (ih (k + 1)).2
        have hlead : leadNL ('\n' :: collapseRun (k + 1) t)
            = leadNL (collapseRun (k + 1) t) + 1 := by
          simp [leadNL, List.takeWhile_cons]
        constructor
        · intro i
          cases i with
          | zero =>
            intro hp
            simp only [List.drop_zero] at hp
            have h2 : (['\n', '\n'] : Text) <+: collapseRun (k + 1) t :=
              (List.cons_prefix_cons.mp hp).2
            have := two_nl_leadNL h2
            omega
          | succ i' => exact fun hp => H1 i' (by simpa using hp)
        · omega
    · have hout : collapseRun k (c :: t) = c :: collapseRun 0 t := by
        simp [collapseRun, hc]
      rw [hout]
      have hlead : leadNL (c :: collapseRun 0 t) = 0 := by
        simp [leadNL, List.takeWhile_cons, hc]
      constructor
      · intro i
        cases i with
        | zero =>
          intro hp
          simp only [List.drop_zero] at hp
          exact hc ((List.cons_prefix_cons.mp hp).1).symm
        | succ i' => exact fun hp => (ih 0).1 i' (by simpa using hp)
      · omega

theorem collapse_no_triple (s : Text) :
    ∀ i, ¬ (['\n', '\n', '\n'] : Text) <+: (collapseNL s).drop i :=
  (collapseRun_inv s 0).1

theorem containsSub_false_of_no_pref {s pat : Text}
    (h : ∀ i, ¬ pat <+: s.drop i) : containsSub s pat = false := by
  cases hfi : firstIdx s pat with
  | none => simp [containsSub, hfi]
  | some i => exact absurd (firstIdx_isPref hfi) (h i)

theorem no_pref_of_within {s u pat : Text} (h : ∀ i, ¬ pat <+: s.drop i)
    (hinf : u <:+: s) : ∀ i, ¬ pat <+: u.drop i := by
  intro i hp
  have hinS : pat <:+: s :=
    (hp.isInfix.trans (List.drop_suffix i u).isInfix).trans hinf
  rcases hinS with ⟨a, b, hab⟩
  refine h a.length ?_
  rw [← hab, List.append_assoc, List.drop_left]
  exact List.prefix_append _ _

theorem trim_within (s : Text) : trim s <:+: s := by
  have h1 : s.dropWhile isJsWs <:+ s := List.dropWhile_suffix _
  have h2 : (s.dropWhile isJsWs).reverse.dropWhile isJsWs <:+ (s.dropWhile isJsWs).reverse :=
    List.dropWhile_suffix _
  have h3 : ((s.dropWhile isJsWs).reverse.dropWhile isJsWs).reverse <+: s.dropWhile isJsWs := by
    have := List.reverse_prefix.mpr h2
    rwa [List.reverse_reverse] at this
  exact (h3.isInfix.trans h1.isInfix)

/-! ## Claim theorems: `removeSection` -/

/-- C5: `removeSection` returns the input unchanged when no section is found;
otherwise it deletes exactly the matched marker-to-marker substring (which
sits at the start marker's first index), collapses every 3-or-more newline
run to two (the result never contains three consecutive newlines), and trims
the whole result; a file that is exactly one section collapses to the empty
string. -/
theorem removeSection_spec (F slug : Text) :
    (extractSection F slug = none → removeSection F slug = F) ∧
    (∀ sec si, extractSection F slug = some sec →
      firstIdx F (startMarker slug) = some si →
      removeSection F slug
          = trim (collapseNL (F.take si ++ F.drop (si + sec.length))) ∧
      containsSub (removeSection F slug) ['\n', '\n', '\n'] = false) ∧
    (extractSection F slug = some F → removeSection F slug = []) := by
  have hrm : ∀ sec, extractSection F slug = some sec →
      removeSection F slug = trim (collapseNL (replaceFirst F sec [])) := by
    intro sec hsec
    unfold removeSection
    rw [hsec]
  refine ⟨?_, ?_, ?_⟩
  · intro h
    unfold removeSection
    rw [h]
  · intro sec si hsec hsm'
    rcases section_facts hsec with ⟨si', ei, hsm, -, -, -, -, -, -, -, hfi⟩
    have hsieq : si' = si := by
      rw [hsm'] at hsm
      exact (Option.some_inj.mp hsm).symm
    subst hsieq
    have hnil : jsSubstitute sec (F.take si') (F.drop (si' + sec.length)) [] = [] := rfl
    have heq : removeSection F slug
        = trim (collapseNL (F.take si' ++ F.drop (si' + sec.length))) := by
      rw [hrm sec hsec, replaceFirst_eq hfi, hnil, List.append_nil]
    refine ⟨heq, ?_⟩
    rw [heq]
    exact containsSub_false_of_no_pref
      (no_pref_of_within (collapse_no_triple _) (trim_within _))
  · intro hself
    have hfiF : firstIdx F F = some 0 :=
      firstIdx_complete (by simp) (by omega)
    have hnil : jsSubstitute F (F.take 0) (F.drop (0 + F.length)) [] = [] := rfl
    rw [hrm F hself, replaceFirst_eq hfiF, hnil]
    simp [List.drop_length]
    rfl

/-- Witness for C5: removing the single middle section of
`"A\n\n<section>\n\nC"`; the four newlines left behind collapse and the result
carries no triple newline. -/
theorem removeSection_spec_witness :
    removeSection "A\n\n<!-- agenthints:x:start -->\nB\n<!-- agenthints:x:end -->\n\nC".data "x".data
        = trim (collapseNL
            ("A\n\n<!-- agenthints:x:start -->\nB\n<!-- agenthints:x:end -->\n\nC".data.take 3 ++
              "A\n\n<!-- agenthints:x:start -->\nB\n<!-- agenthints:x:end -->\n\nC".data.drop
                (3 + "<!-- agenthints:x:start -->\nB\n<!-- agenthints:x:end -->".data.length))) ∧
    containsSub
        (removeSection "A\n\n<!-- agenthints:x:start -->\nB\n<!-- agenthints:x:end -->\n\nC".data "x".data)
        ['\n', '\n', '\n'] = false :=
  (removeSection_spec "A\n\n<!-- agenthints:x:start -->\nB\n<!-- agenthints:x:end -->\n\nC".data
      "x".data).2.1
    "<!-- agenthints:x:start -->\nB\n<!-- agenthints:x:end -->".data 3
    (by decide) (by decide)

/-! ## Supporting lemmas for the upsert/extract round trip -/

theorem extract_of_fi {R slug : Text} {A B : Nat}
    (hA : firstIdx R (startMarker slug) = some A)
    (hB : firstIdx R (endMarker slug) = some B) (hAB : A < B) :
    extractSection R slug = some (sliceL R A (B + (endMarker slug).length)) := by
  unfold extractSection
  rw [hA, hB]
  simp [Nat.not_le.mpr hAB]

theorem slice_middle (P S' Q : Text) :
    sliceL (P ++ S' ++ Q) P.length (P.length + S'.length) = S' := by
  unfold sliceL
  rw [List.take_append_eq_append_take]
  have h1 : (P ++ S').length ≤ P.length + S'.length := by simp
  have h2 : P.length + S'.length - (P ++ S').length = 0 := by simp
  rw [List.take_of_length_le h1, h2, List.take_zero, List.append_nil, List.drop_left]

/-- A pattern without newlines that does not occur in `u` cannot start before
the end of the `"\n\n"` separator in `u ++ "\n\n" ++ v`. -/
theorem no_occ_append_nl {u v pat : Text} (hne : pat ≠ []) (hnl : '\n' ∉ pat)
    (hocc : ∀ j, ¬ pat <+: u.drop j) :
    ∀ j, j < u.length + 2 → ¬ pat <+: (u ++ '\n' :: '\n' :: v).drop j := by
  intro j hj hp
  rcases Nat.lt_or_ge j (u.length + 1) with hle | hgt
  · have hju : j ≤ u.length := by omega
    rw [List.drop_append_eq_append_drop, Nat.sub_eq_zero_of_le hju, List.drop_zero] at hp
    rcases Nat.lt_or_ge (u.length - j) pat.length with hshort | hlong
    · refine hnl (mem_of_pref_past hp ?_)
      simp only [List.length_drop]
      omega
    · refine hocc j (pref_left hp ?_)
      simp only [List.length_drop]
      omega
  · have hj1 : j = u.length + 1 := by omega
    subst hj1
    rw [List.drop_append_eq_append_drop] at hp
    have h1 : u.drop (u.length + 1) = [] := by
      apply List.drop_eq_nil_of_le
      omega
    have h2 : u.length + 1 - u.length = 1 := by omega
    rw [h1, h2, List.nil_append] at hp
    simp only [List.drop_succ_cons, List.drop_zero] at hp
    cases pat with
    | nil => exact hne rfl
    | cons c rest => exact hnl (by simp [(List.cons_prefix_cons.mp hp).1])

/-- Inside a well-formed section text `S'` (end marker flush at the end), the
end marker has no occurrence before its final position, even with arbitrary
text appended. -/
theorem em_min_mid {S' Q slug : Text}
    (hem : firstIdx S' (endMarker slug) = some (S'.length - (endMarker slug).length))
    (hel : (endMarker slug).length < S'.length) :
    ∀ m, m < S'.length - (endMarker slug).length →
      ¬ endMarker slug <+: S'.drop m ++ Q := by
  intro m hm hp
  rcases Nat.lt_or_ge (S'.length - m) (endMarker slug).length with hshort | hlong
  · omega
  · refine firstIdx_min hem m hm (pref_left hp ?_)
    simp only [List.length_drop]
    omega

/-- In the replaced file `F.take si ++ (S' ++ Q)` where the original file had
its start marker first at `si` and `S'` also starts with the start marker, a
marker-sized pattern has no occurrence before `si` unless it already had one
in `F`. -/
theorem no_occ_before_replace {F S' slug pat : Text} {si : Nat} (Q : Text)
    (hsi_le : si ≤ F.length)
    (hsm_occ : startMarker slug <+: F.drop si)
    (hS : startMarker slug <+: S')
    (hlen_pat : pat.length ≤ (startMarker slug).length)
    (hmin : ∀ j, j < si → ¬ pat <+: F.drop j) :
    ∀ j, j < si → ¬ pat <+: (F.take si ++ (S' ++ Q)).drop j := by
  intro j hj hp
  have htklen : (F.take si).length = si := by
    simp only [List.length_take]
    omega
  have hx : ((F.take si).drop j).length = si - j := by
    simp only [List.length_drop, htklen]
  have hj' : j - (F.take si).length = 0 := by omega
  rw [List.drop_append_eq_append_drop, hj', List.drop_zero] at hp
  have hFdropj : F.drop j = (F.take si).drop j ++ F.drop si := by
    conv_lhs => rw [← List.take_append_drop si F]
    rw [List.drop_append_eq_append_drop, hj', List.drop_zero]
  rcases Nat.lt_or_ge (si - j) pat.length with hlong | hshort
  · have htrans : pat <+: (F.take si).drop j ++ F.drop si :=
      pref_transfer hp (by omega) (pref_ext hS) hsm_occ (by omega)
    rw [← hFdropj] at htrans
    exact hmin j hj htrans
  · have hin : pat <+: (F.take si).drop j := pref_left hp (by omega)
    exact hmin j hj (hFdropj ▸ pref_ext hin)

/-! ## Claim theorems: upsert/extract round trip -/

/-- C1 (amended): for a well-formed section text
(`extractSection S slug = some S`), `extractSection ∘ upsertSection`
returns `S` whenever either (a) the file already holds a section for the slug
and `S` contains no `$` (JS replacement patterns), or (b) the file contains
neither marker and the slug has no newline.  The unrestricted claim is
refuted by `upsert_extract_roundtrip_cex`: on a file containing only the end
marker, upsert appends, and extraction then sees the first end-marker index
before the start marker and fails. -/
theorem upsert_extract_roundtrip (F slug S : Text)
    (hWF : extractSection S slug = some S)
    (hcase : ((∃ ex, extractSection F slug = some ex) ∧ '$' ∉ S) ∨
      (containsSub F (startMarker slug) = false ∧
        containsSub F (endMarker slug) = false ∧ '\n' ∉ slug)) :
    extractSection (upsertSection F slug S) slug = some S := by
  rcases extract_self hWF with ⟨hSsm, hSem, hel, hsmS⟩
  rcases hcase with ⟨⟨ex, hex⟩, hdollar⟩ | ⟨hnoSm, hnoEm, hnlSlug⟩
  · rcases section_facts hex with
      ⟨si, ei, hsm, hem, hgap, hbound, hexval, hlenex, hsmex, hpre, hfi⟩
    have hsi_le : si ≤ F.length := by omega
    have hup1 : upsertSection F slug S = replaceFirst F ex S := by
      unfold upsertSection
      rw [hex]
    have hup : upsertSection F slug S
        = F.take si ++ (S ++ F.drop (si + ex.length)) := by
      rw [hup1, replaceFirst_eq hfi, no_dollar_subst _ _ _ hdollar, List.append_assoc]
    set Q := F.drop (si + ex.length) with hQ
    have htklen : (F.take si).length = si := by
      simp only [List.length_take]
      omega
    have hdrop_mid : ∀ m, (F.take si ++ (S ++ Q)).drop (si + m) = (S ++ Q).drop m := by
      intro m
      have h := @List.drop_append Char (F.take si) (S ++ Q) m
      rwa [htklen] at h
    have hfiR_sm : firstIdx (F.take si ++ (S ++ Q)) (startMarker slug) = some si := by
      apply firstIdx_complete
      · rw [List.drop_left' htklen]
        exact pref_ext hsmS
      · exact no_occ_before_replace Q hsi_le (firstIdx_isPref hsm) hsmS
          (le_refl _) (firstIdx_min hsm)
    have hemlen : (endMarker slug).length ≤ (startMarker slug).length := by
      rw [startMarker_length, endMarker_length]
      omega
    have hfiR_em : firstIdx (F.take si ++ (S ++ Q)) (endMarker slug)
        = some (si + (S.length - (endMarker slug).length)) := by
      apply firstIdx_complete
      · rw [hdrop_mid, List.drop_append_eq_append_drop]
        have h0 : S.length - (endMarker slug).length - S.length = 0 := by omega
        rw [h0, List.drop_zero]
        exact pref_ext (firstIdx_isPref hSem)
      · intro j hj
        rcases Nat.lt_or_ge j si with hjsi | hjge
        · exact no_occ_before_replace Q hsi_le (firstIdx_isPref hsm) hsmS hemlen
            (fun j' hj' => firstIdx_min hem j' (by omega)) j hjsi
        · obtain ⟨m', rfl⟩ : ∃ m', j = si + m' := ⟨j - si, by omega⟩
          have hm' : m' < S.length - (endMarker slug).length := by omega
          rw [hdrop_mid, List.drop_append_eq_append_drop]
          have h0 : m' - S.length = 0 := by omega
          rw [h0, List.drop_zero]
          exact em_min_mid hSem hel m' hm'
    rw [hup, extract_of_fi hfiR_sm hfiR_em (by omega), ← List.append_assoc]
    congr 1
    have harg : si + (S.length - (endMarker slug).length) + (endMarker slug).length
        = si + S.length := by omega
    rw [harg]
    have hsl := slice_middle (F.take si) S Q
    rw [htklen] at hsl
    exact hsl
  · have hfiFsm : firstIdx F (startMarker slug) = none := by
      cases hfi : firstIdx F (startMarker slug) with
      | none => rfl
      | some k => simp [containsSub, hfi] at hnoSm
    have hextF : extractSection F slug = none := by
      unfold extractSection
      rw [hfiFsm]
    have hup0 : upsertSection F slug S
        = if (trim F).isEmpty then S else trim F ++ '\n' :: '\n' :: S := by
      unfold upsertSection
      rw [hextF]
    by_cases htF : (trim F).isEmpty
    · rw [hup0, if_pos htF]
      exact hWF
    · rw [hup0, if_neg htF]
      set u := trim F with hu
      have hoccU_sm : ∀ j, ¬ startMarker slug <+: u.drop j :=
        no_pref_of_within (containsSub_false_no_pref hnoSm) (trim_within F)
      have hoccU_em : ∀ j, ¬ endMarker slug <+: u.drop j :=
        no_pref_of_within (containsSub_false_no_pref hnoEm) (trim_within F)
      have hsmne : startMarker slug ≠ [] := by
        rw [startMarker_cons]
        simp
      have hemne : endMarker slug ≠ [] := by
        rw [endMarker_cons]
        simp
      have hform : u ++ '\n' :: '\n' :: S = (u ++ ['\n', '\n']) ++ S := by
        simp
      have hPlen : (u ++ ['\n', '\n']).length = u.length + 2 := by
        simp
      have hdrop_mid : ∀ m, (u ++ '\n' :: '\n' :: S).drop (u.length + 2 + m) = S.drop m := by
        intro m
        have h := @List.drop_append Char (u ++ ['\n', '\n']) S m
        rw [hPlen] at h
        rw [hform]
        exact h
      have hfiR_sm : firstIdx (u ++ '\n' :: '\n' :: S) (startMarker slug)
          = some (u.length + 2) := by
        apply firstIdx_complete
        · have h := hdrop_mid 0
          rw [Nat.add_zero] at h
          rw [h, List.drop_zero]
          exact hsmS
        · exact no_occ_append_nl hsmne (nl_not_mem_startMarker hnlSlug) hoccU_sm
      have hfiR_em : firstIdx (u ++ '\n' :: '\n' :: S) (endMarker slug)
          = some (u.length + 2 + (S.length - (endMarker slug).length)) := by
        apply firstIdx_complete
        · rw [hdrop_mid]
          exact firstIdx_isPref hSem
        · intro j hj
          rcases Nat.lt_or_ge j (u.length + 2) with hjlt | hjge
          · exact no_occ_append_nl hemne (nl_not_mem_endMarker hnlSlug) hoccU_em j hjlt
          · obtain ⟨m', rfl⟩ : ∃ m', j = u.length + 2 + m' := ⟨j - (u.length + 2), by omega⟩
            have hm' : m' < S.length - (endMarker slug).length := by omega
            rw [hdrop_mid]
            intro hp
            exact em_min_mid (Q := []) hSem hel m' hm' (by simpa using hp)
      rw [extract_of_fi hfiR_sm hfiR_em (by omega)]
      congr 1
      have harg : u.length + 2 + (S.length - (endMarker slug).length) + (endMarker slug).length
          = u.length + 2 + S.length := by omega
      rw [harg, hform]
      have hsl := slice_middle (u ++ ['\n', '\n']) S []
      rw [List.append_nil, hPlen] at hsl
      exact hsl

/-- Witness for C1 (append case): a marker-free file, slug `x`, and the
wrapped section text round-trip. -/
theorem upsert_extract_roundtrip_witness :
    extractSection
        (upsertSection "# Hello".data "x".data
          "<!-- agenthints:x:start -->\nA\n<!-- agenthints:x:end -->".data)
        "x".data
      = some "<!-- agenthints:x:start -->\nA\n<!-- agenthints:x:end -->".data :=
  upsert_extract_roundtrip "# Hello".data "x".data
    "<!-- agenthints:x:start -->\nA\n<!-- agenthints:x:end -->".data
    (by decide) (Or.inr ⟨by decide, by decide, by decide⟩)

/-- C1 counterexample: the claim quantifies over every file text, but a file
consisting of just the end marker defeats the round trip: upsert appends the
(well-formed) section `S` after it, and extraction returns `null` because the
first end-marker index (0) precedes the first start-marker index. -/
theorem upsert_extract_roundtrip_cex :
    extractSection "<!-- agenthints:x:start -->\nA\n<!-- agenthints:x:end -->".data "x".data
        = some "<!-- agenthints:x:start -->\nA\n<!-- agenthints:x:end -->".data ∧
    extractSection
        (upsertSection "<!-- agenthints:x:end -->".data "x".data
          "<!-- agenthints:x:start -->\nA\n<!-- agenthints:x:end -->".data)
        "x".data = none :=
  ⟨by decide, by decide⟩

theorem splitSegs_noSlash (s : Text) : ∀ seg ∈ splitSegs s, '/' ∉ seg := by
  induction s with
  | nil =>
    intro seg hseg
    rw [splitSegs] at hseg
    simp at hseg
    simp [hseg]
  | cons c t ih =>
    intro seg hseg
    rw [splitSegs] at hseg
    by_cases hc : c = '/'
    · rw [if_pos hc] at hseg
      rcases List.mem_cons.mp hseg with rfl | h
      · simp
      · exact ih seg h
    · rw [if_neg hc] at hseg
      cases hs : splitSegs t with
      | nil =>
        rw [hs] at hseg
        simp at hseg
        subst hseg
        simp only [List.mem_singleton]
        exact fun h => hc h.symm
      | cons s rest =>
        rw [hs] at hseg
        rcases List.mem_cons.mp hseg with rfl | h
        · intro hmem
          rcases List.mem_cons.mp hmem with h' | h'
          · exact hc h'.symm
          · exact ih s (by simp [hs]) h'
        · exact ih seg (by simp [hs, h])

theorem wfSegs_iff {l : List Text} : wfSegs l = true ↔ WfP l := by
  unfold wfSegs WfP
  rw [List.all_eq_true]
  constructor
  · intro h s hs
    have := h s hs
    simp only [Bool.and_eq_true, Bool.not_eq_true', List.isEmpty_eq_false,
      List.all_eq_true] at this
    refine ⟨this.1, fun hmem => ?_⟩
    have := this.2 '/' hmem
    simp at this
  · intro h s hs
    rcases h s hs with ⟨h1, h2⟩
    simp only [Bool.and_eq_true, Bool.not_eq_true', List.isEmpty_eq_false,
      List.all_eq_true]
    exact ⟨h1, fun c hc => by
      simp only [Bool.not_eq_true', beq_eq_false_iff_ne]
      rintro rfl
      exact h2 hc⟩

theorem applySegs_wf {acc : List Text} {segs : List Text} (hacc : WfP acc)
    (hsegs : ∀ s ∈ segs, '/' ∉ s) : WfP (applySegs acc segs) := by
  induction segs generalizing acc with
  | nil => exact hacc
  | cons s rest ih =>
    have hstep : WfP (stepSeg acc s) := by
      unfold stepSeg
      split
      · exact hacc
      · split
        · intro x hx
          exact hacc x (List.dropLast_sublist acc |>.mem hx)
        · rename_i hskip hdots
          intro x hx
          rcases List.mem_append.mp hx with h | h
          · exact hacc x h
          · rcases List.mem_singleton.mp h with rfl
            constructor
            · intro hnil
              apply hskip
              simp [hnil]
            · exact hsegs _ (by simp)
    exact ih hstep (fun x hx => hsegs x (by simp [hx]))

theorem resolveAbs_wf {base : List Text} (rel : Text) (hbase : WfP base) :
    WfP (resolveAbs base rel) := by
  unfold resolveAbs
  split
  · exact applySegs_wf (by intro s hs; simp at hs) (splitSegs_noSlash _)
  · exact applySegs_wf hbase (splitSegs_noSlash _)

/-- Matching decomposition for slash-free segments: if `s ++ "/" ++ X` is a
prefix of `t ++ "/" ++ Y` then `s = t` and `X` is a prefix of `Y`. -/
theorem seg_match : ∀ (s t X Y : Text), '/' ∉ s → '/' ∉ t →
    (s ++ '/' :: X) <+: (t ++ '/' :: Y) → s = t ∧ X <+: Y := by
  intro s
  induction s with
  | nil =>
    intro t X Y _ ht hp
    cases t with
    | nil =>
      simp only [List.nil_append] at hp
      exact ⟨rfl, (List.cons_prefix_cons.mp hp).2⟩
    | cons d t' =>
      simp only [List.nil_append, List.cons_append] at hp
      have hd : '/' = d := (List.cons_prefix_cons.mp hp).1
      have hmem : '/' ∈ d :: t' := by
        rw [hd]
        exact List.mem_cons_self d t'
      exact absurd hmem ht
  | cons c s' ih =>
    intro t X Y hs ht hp
    cases t with
    | nil =>
      simp only [List.cons_append, List.nil_append] at hp
      have hd : c = '/' := (List.cons_prefix_cons.mp hp).1
      have hmem : '/' ∈ c :: s' := by
        rw [← hd]
        exact List.mem_cons_self c s'
      exact absurd hmem hs
    | cons d t' =>
      simp only [List.cons_append] at hp
      rcases List.cons_prefix_cons.mp hp with ⟨rfl, hp'⟩
      have hs' : '/' ∉ s' := fun h => hs (by simp [h])
      have ht' : '/' ∉ t' := fun h => ht (by simp [h])
      rcases ih t' X Y hs' ht' hp' with ⟨rfl, hXY⟩
      exact ⟨rfl, hXY⟩

theorem renderSegs_slash (as : List Text) :
    ∃ X, renderSegs as ++ ['/'] = '/' :: X := by
  cases as with
  | nil => exact ⟨[], rfl⟩
  | cons u as' => exact ⟨(u ++ renderSegs as') ++ ['/'], by simp [renderSegs]⟩

theorem segsPrefix : ∀ (a b : List Text), (∀ s ∈ a, '/' ∉ s) → (∀ s ∈ b, '/' ∉ s) →
    (renderSegs a ++ ['/']) <+: (renderSegs b ++ ['/']) → a <+: b := by
  intro a
  induction a with
  | nil => intro b _ _ _; exact List.nil_prefix
  | cons s as ih =>
    intro b ha hb hp
    cases b with
    | nil =>
      have := hp.length_le
      simp [renderSegs] at this
    | cons t bs =>
      simp only [renderSegs, List.cons_append] at hp
      rcases List.cons_prefix_cons.mp hp with ⟨-, hp'⟩
      rcases renderSegs_slash as with ⟨X, hX⟩
      rcases renderSegs_slash bs with ⟨Y, hY⟩
      rw [List.append_assoc, hX] at hp'
      rw [List.append_assoc, hY] at hp'
      rcases seg_match s t X Y (ha s (by simp)) (hb t (by simp)) hp' with ⟨rfl, hXY⟩
      have hrec : (renderSegs as ++ ['/']) <+: (renderSegs bs ++ ['/']) := by
        rw [hX, hY]
        exact List.cons_prefix_cons.mpr ⟨rfl, hXY⟩
      have := ih bs (fun x hx => ha x (by simp [hx])) (fun x hx => hb x (by simp [hx])) hrec
      exact List.cons_prefix_cons.mpr ⟨rfl, this⟩

theorem renderPath_pref {a b : List Text} (ha : WfP a) (hb : WfP b)
    (hp : (renderPath a ++ ['/']) <+: (renderPath b ++ ['/'])) : a <+: b := by
  cases a with
  | nil => exact List.nil_prefix
  | cons s as =>
    cases b with
    | nil =>
      have hlen := hp.length_le
      have hne : s ≠ [] := (ha s (by simp)).1
      have : 1 ≤ s.length := by
        cases s with
        | nil => exact absurd rfl hne
        | cons _ _ => simp
      simp [renderPath, renderSegs] at hlen
      omega
    | cons t bs =>
      refine segsPrefix (s :: as) (t :: bs) ?_ ?_ hp
      · exact fun x hx => (ha x hx).2
      · exact fun x hx => (hb x hx).2

/-! ## Claim theorems: path-traversal guard -/

/-- C7: `resolvePath` either returns exactly the resolution of the relative
path against `cwd` — and then that resolution lies inside `cwd` (its segments
extend the `cwd` segments) — or it fails with the path-escape error message:
whenever the resolution falls outside `cwd`, the error is thrown, and no
clamped or altered path is ever returned. -/
theorem resolvePath_escape (relativePath : Text) (cwd : List Text)
    (hwf : wfSegs cwd = true) :
    (∀ p, resolvePath relativePath cwd = Except.ok p →
      p = renderPath (resolveAbs cwd relativePath) ∧
      cwd <+: resolveAbs cwd relativePath) ∧
    (¬ cwd <+: resolveAbs cwd relativePath →
      resolvePath relativePath cwd = Except.error (pathEscapeMsg relativePath)) := by
  have hwfP : WfP cwd := wfSegs_iff.mp hwf
  have hwfR : WfP (resolveAbs cwd relativePath) := resolveAbs_wf _ hwfP
  have hpref_of_cond :
      ((renderPath cwd ++ ['/']).isPrefixOf (renderPath (resolveAbs cwd relativePath))
          || renderPath (resolveAbs cwd relativePath) = renderPath cwd) = true →
      cwd <+: resolveAbs cwd relativePath := by
    intro hcond
    rw [Bool.or_eq_true] at hcond
    rcases hcond with h | h
    · exact renderPath_pref hwfP hwfR (pref_ext (List.isPrefixOf_iff_prefix.mp h))
    · have h' : renderPath (resolveAbs cwd relativePath) = renderPath cwd :=
        of_decide_eq_true h
      refine renderPath_pref hwfP hwfR ?_
      rw [h']
  constructor
  · intro p hP
    unfold resolvePath at hP
    split at hP
    · rename_i hcond
      injection hP with h
      exact ⟨h.symm, hpref_of_cond hcond⟩
    · exact Except.noConfusion hP
  · intro hesc
    unfold resolvePath
    split
    · rename_i hcond
      exact absurd (hpref_of_cond hcond) hesc
    · rfl

/-- Witness for C7, the spec's Scenario 5: `"../../etc/passwd"` against
`/home/user/project` resolves to `/home/etc/passwd`, outside the working
directory, and throws. -/
theorem resolvePath_escape_witness :
    resolvePath "../../etc/passwd".data ["home".data, "user".data, "project".data]
      = Except.error (pathEscapeMsg "../../etc/passwd".data) :=
  (resolvePath_escape "../../etc/passwd".data
      ["home".data, "user".data, "project".data] (by decide)).2 (by decide)

/-! ## Claim theorems: registry client cache gate and error paths -/

/-- C2: provided a supplied hash is a nonempty string, `fetchHintContent`
serves from cache exactly when the entry exists, is unexpired under the long
TTL, and either no hash was expected or the cached hash matches; in every
other case (hash mismatch within TTL, expiry despite matching hash, no
entry) it fetches and writes back the body together with `expectedSha256`. -/
theorem fetchHintContent_cache_gate (cached : Option ContentCacheEntry) (now : Int)
    (resp : HttpTextResponse) (expectedSha256 : Option Text)
    (hne : expectedSha256 ≠ some []) (hok : respOk resp.status = true) :
    (∀ c, cached = some c →
      (fetchHintContent cached now resp expectedSha256
          = ContentFetchResult.fromCache c.data ↔
        (isExpired now c.timestamp HINT_TTL_MS = false ∧
          (expectedSha256 = none ∨ c.sha256 = expectedSha256)))) ∧
    (contentCacheUsable cached now expectedSha256 = false →
      fetchHintContent cached now resp expectedSha256
        = ContentFetchResult.fromNetwork resp.body ⟨resp.body, now, expectedSha256⟩) := by
  have hwrite : (if truthyOpt expectedSha256 then expectedSha256 else none)
      = expectedSha256 := by
    cases hE : expectedSha256 with
    | none => rfl
    | some s =>
      have hs : s ≠ [] := fun h => hne (by rw [hE, h])
      simp [truthyOpt, List.isEmpty_iff, hs]
  have hstep : contentNetworkStep resp now expectedSha256
      = ContentFetchResult.fromNetwork resp.body ⟨resp.body, now, expectedSha256⟩ := by
    unfold contentNetworkStep
    rw [hok, if_pos rfl, hwrite]
  have husable_iff : ∀ c, contentCacheUsable (some c) now expectedSha256 = true ↔
      (isExpired now c.timestamp HINT_TTL_MS = false ∧
        (expectedSha256 = none ∨ c.sha256 = expectedSha256)) := by
    intro c
    cases hE : expectedSha256 with
    | none => simp [contentCacheUsable, truthyOpt]
    | some s =>
      have hs : s ≠ [] := fun h => hne (by rw [hE, h])
      have hsE : s.isEmpty = false := by simp [List.isEmpty_iff, hs]
      simp [contentCacheUsable, truthyOpt, hsE]
  have hfc : ∀ c, fetchHintContent (some c) now resp expectedSha256 =
      (if contentCacheUsable (some c) now expectedSha256 then
        ContentFetchResult.fromCache c.data
      else contentNetworkStep resp now expectedSha256) := fun c => rfl
  constructor
  · intro c hc
    subst hc
    cases husable : contentCacheUsable (some c) now expectedSha256 with
    | true =>
      have hres : fetchHintContent (some c) now resp expectedSha256
          = ContentFetchResult.fromCache c.data := by
        rw [hfc, husable, if_pos rfl]
      rw [hres]
      simp only [true_iff]
      exact (husable_iff c).mp husable
    | false =>
      have hres : fetchHintContent (some c) now resp expectedSha256
          = ContentFetchResult.fromNetwork resp.body ⟨resp.body, now, expectedSha256⟩ := by
        rw [hfc, husable, if_neg (by simp), hstep]
      rw [hres]
      constructor
      · intro h
        cases h
      · intro h
        rw [← husable_iff c] at h
        rw [husable] at h
        cases h
  · intro hfalse
    cases cached with
    | none => exact hstep
    | some c =>
      rw [hfc, hfalse, if_neg (by simp), hstep]

/-- Witness for C2: unexpired cache entry with hash `aaa`, expected hash
`bbb` — the gate rejects the cache and the network body is stored together
with the expected hash. -/
theorem fetchHintContent_cache_gate_witness :
    fetchHintContent (some ⟨"old".data, 0, some "aaa".data⟩) 1
        ⟨200, "OK".data, "new".data⟩ (some "bbb".data)
      = ContentFetchResult.fromNetwork "new".data ⟨"new".data, 1, some "bbb".data⟩ :=
  (fetchHintContent_cache_gate (some ⟨"old".data, 0, some "aaa".data⟩) 1
      ⟨200, "OK".data, "new".data⟩ (some "bbb".data) (by decide) (by decide)).2
    (by decide)

/-- C8: on a cache miss, a 404 response makes `fetchHintMetadata` fail with
the not-found error — a constructor distinct from the generic fetch error,
whose message contains the requested slug and the `agenthints list`
suggestion and never coincides with any generic fetch-error message; every
other non-2xx response yields the generic fetch error carrying the status
text. -/
theorem fetchHintMetadata_404_spec (cached : Option MetaCacheEntry) (now : Int)
    (hintPath : Text) (resp : MetaHttpResponse)
    (hmiss : metaCacheUsable cached now = false) :
    (resp.status = 404 →
      fetchHintMetadata cached now hintPath resp
          = MetaFetchResult.notFoundError (notFoundMsg hintPath) ∧
      containsSub (notFoundMsg hintPath) hintPath = true ∧
      containsSub (notFoundMsg hintPath) "agenthints list".data = true ∧
      (∀ st : Text, notFoundMsg hintPath ≠ fetchMetaErrMsg st)) ∧
    (respOk resp.status = false → resp.status ≠ 404 →
      fetchHintMetadata cached now hintPath resp
        = MetaFetchResult.fetchError (fetchMetaErrMsg resp.statusText)) := by
  have hstep : fetchHintMetadata cached now hintPath resp
      = metaNetworkStep hintPath resp now := by
    cases cached with
    | none => rfl
    | some c =>
      have hmiss' : (!isExpired now c.timestamp HINT_TTL_MS) = false := hmiss
      have hfm : fetchHintMetadata (some c) now hintPath resp =
          (if (!isExpired now c.timestamp HINT_TTL_MS) then
            MetaFetchResult.fromCache c.data
          else metaNetworkStep hintPath resp now) := rfl
      rw [hfm, hmiss', if_neg (by simp)]
  constructor
  · intro h404
    have hnotok : respOk resp.status = false := by
      rw [h404]
      decide
    refine ⟨?_, ?_, ?_, ?_⟩
    · rw [hstep]
      unfold metaNetworkStep
      rw [hnotok]
      simp [h404]
    · exact containsSub_iff_occurs.mpr
        ⟨"Hint \"".data,
         "\" not found in registry. Run \"agenthints list\" to see available hints.".data,
         rfl⟩
    · refine containsSub_iff_occurs.mpr
        ⟨"Hint \"".data ++ hintPath ++ "\" not found in registry. Run \"".data,
         "\" to see available hints.".data, ?_⟩
      have hlit : ("\" not found in registry. Run \"".data : Text) ++
          ("agenthints list".data ++ "\" to see available hints.".data) =
          "\" not found in registry. Run \"agenthints list\" to see available hints.".data := by
        decide
      simp [notFoundMsg, List.append_assoc, hlit]
    · intro st h
      have h1 : notFoundMsg hintPath = 'H' :: ("int \"".data ++ hintPath ++
          "\" not found in registry. Run \"agenthints list\" to see available hints.".data) := rfl
      have h2 : fetchMetaErrMsg st = 'F' :: ("ailed to fetch hint metadata: ".data ++ st) := rfl
      rw [h1, h2] at h
      injection h with hhead _
      exact absurd hhead (by decide)
  · intro hnotok hne404
    rw [hstep]
    unfold metaNetworkStep
    rw [hnotok, if_neg hne404]
    simp

/-- Witness for C8: a 404 on a cold cache for slug `prisma`. -/
theorem fetchHintMetadata_404_witness :
    fetchHintMetadata none 0 "prisma".data ⟨404, "Not Found".data, sampleMeta⟩
        = MetaFetchResult.notFoundError (notFoundMsg "prisma".data) ∧
    containsSub (notFoundMsg "prisma".data) "prisma".data = true ∧
    containsSub (notFoundMsg "prisma".data) "agenthints list".data = true ∧
    (∀ st : Text, notFoundMsg "prisma".data ≠ fetchMetaErrMsg st) :=
  (fetchHintMetadata_404_spec none 0 "prisma".data ⟨404, "Not Found".data, sampleMeta⟩
      rfl).1 rfl

end AgentHints
